import Mathlib

/-!
Shallow embedding of the `ai-lab` chat client (src/frontend/app.js and the
unnamed variant src/unnamed/part_000) and, where the backend is absent from
the sources, a model of the orchestrator taken from the specification.

The client receives a stream of Server-Sent-Event lines.  Each line that
starts with "data: " carries a JSON payload `{type, content}` with
`type ∈ {status, question, text, done}`.  The embedding keeps the JSON
decoder abstract (a `String → Option Ev` parameter) and models the DOM
state touched by the event loop explicitly.
-/

/-- A decoded stream event, the `{type, content}` shape of the protocol.
`other` stands for a JSON object whose `type` is none of the four
protocol types (the if/else chain of the client falls through on it). -/
inductive Ev where
  | status (content : String)
  | question (content : String)
  | text (content : String)
  | done
  | other
  deriving Repr, DecidableEq

/-- The status element HTML written by `status.innerHTML` for an active
status, from the template literal in `send`. -/
def spinnerSpan (c : String) : String :=
  "<div class=\"spinner\"></div><span>" ++ c ++ "</span>"

/-- DOM/JS state of one turn in src/frontend/app.js: the `busy` flag, the
send-button `disabled` property, the status element class and innerHTML,
the response element textContent, and the accumulated `text` variable. -/
structure StateA where
  busy : Bool
  btnDisabled : Bool
  statusClass : String
  statusHtml : String
  responseText : String
  text : String
  deriving Repr, DecidableEq

/-- State at the top of `send` in app.js: `busy = true`, button disabled,
status shows the spinner with "Thinking...", empty response. -/
def initA : StateA :=
  { busy := true
    btnDisabled := true
    statusClass := "status active"
    statusHtml := spinnerSpan "Thinking..."
    responseText := ""
    text := "" }

/-- One iteration of the event dispatch in app.js (lines 75-84):
`status` rewrites the status innerHTML, `text` appends to `text` and
shows it via `textContent`, `done` marks the status Complete; any other
type (in particular `question`) only calls `scroll()`. -/
def stepA (st : StateA) (e : Ev) : StateA :=
  match e with
  | Ev.status c => { st with statusHtml := spinnerSpan c }
  | Ev.text c =>
      let t := st.text ++ c
      { st with text := t, responseText := t }
  | Ev.done =>
      { st with statusClass := "status done", statusHtml := "Complete" }
  | Ev.question _ => st
  | Ev.other => st

/-- Processing a whole sequence of decoded events in arrival order. -/
def runA (st : StateA) (evs : List Ev) : StateA :=
  evs.foldl stepA st

/-- One received line in app.js (lines 69-73): lines not starting with
"data: " are skipped, the payload after the 6-character prefix is decoded
by `parse` (the JSON.parse model) and a decode failure is swallowed by
the try/catch, leaving the state unchanged. -/
def lineA (parse : String → Option Ev) (st : StateA) (line : String) : StateA :=
  if line.startsWith "data: " then
    match parse (line.drop 6) with
    | Option.some e => stepA st e
    | Option.none => st
  else st

/-- Outcome of the network interaction of one `send` call: either the
stream is read to its end, or fetch/reading throws after some prefix of
lines was already processed. -/
inductive SendOutcome where
  | stream (lines : List String)
  | failAfter (lines : List String)

/-- The whole `send` function of app.js on one outcome: process the lines,
then on normal end mark the status Complete, on a thrown error show the
connection-failure status; in both cases clear `busy` and re-enable the
button. -/
def sendA (parse : String → Option Ev) (o : SendOutcome) : StateA :=
  match o with
  | SendOutcome.stream lines =>
      let st := lines.foldl (lineA parse) initA
      { st with statusClass := "status done", statusHtml := "Complete",
                busy := false, btnDisabled := false }
  | SendOutcome.failAfter lines =>
      let st := lines.foldl (lineA parse) initA
      { st with statusClass := "status error",
                statusHtml := "Failed to connect. Is the backend running?",
                busy := false, btnDisabled := false }

/-- Global, leftmost, non-overlapping literal replacement on character
lists: the semantics of JavaScript `String.prototype.replace` with a
global regex whose pattern is the literal `p :: ps`.  The replacement is
not rescanned. -/
def replaceL (p : Char) (ps : List Char) (repl : List Char) : List Char → List Char
  | [] => []
  | c :: rest =>
    if c = p ∧ ps.isPrefixOf rest then
      repl ++ replaceL p ps repl (rest.drop ps.length)
    else
      c :: replaceL p ps repl rest
termination_by l => l.length
decreasing_by
  · simp; omega
  · simp

def strongOpen : List Char := "<strong>".data
def strongClose : List Char := "</strong>".data

/-- The bold pass of `formatMarkdown`: JavaScript
`html.replace(/\*\*([^*]+)\*\*/g, "<strong>$1</strong>")`.  A match is a
pair of stars, a nonempty maximal run of non-star characters, and a
closing pair of stars; on failure the scan advances one character. -/
def boldRepl : List Char → List Char
  | [] => []
  | [c] => [c]
  | c1 :: c2 :: rest =>
    if c1 = '*' ∧ c2 = '*' ∧
        rest.takeWhile (fun c => c ≠ '*') ≠ [] ∧
        ['*', '*'].isPrefixOf (rest.dropWhile (fun c => c ≠ '*')) then
      strongOpen ++ rest.takeWhile (fun c => c ≠ '*') ++ strongClose ++
        boldRepl ((rest.dropWhile (fun c => c ≠ '*')).drop 2)
    else
      c1 :: boldRepl (c2 :: rest)
termination_by l => l.length
decreasing_by
  · have h := (List.dropWhile_sublist (l := rest) (fun c => c ≠ '*')).length_le
    simp at h ⊢
    omega
  · simp

def ampRepl : List Char := "&amp;".data
def ltRepl : List Char := "&lt;".data
def gtRepl : List Char := "&gt;".data
def brRepl : List Char := "<br>".data
def bulletSpanRepl : List Char := "<span style=\"color: #60a5fa;\">•</span>".data
def warnSpanRepl : List Char := "<span style=\"color: #fbbf24;\">⚠️</span>".data

/-- The `formatMarkdown` pipeline of src/unnamed/part_000 (lines 27-47),
on character lists: escape `&`, `<`, `>`, then bold, then newlines to
`<br>`, then the styled bullet and warning spans.  The warning emoji is
the two-codepoint sequence U+26A0 U+FE0F. -/
def formatMarkdownL (l : List Char) : List Char :=
  let h1 := replaceL '&' [] ampRepl l
  let h2 := replaceL '<' [] ltRepl h1
  let h3 := replaceL '>' [] gtRepl h2
  let h4 := boldRepl h3
  let h5 := replaceL '\n' [] brRepl h4
  let h6 := replaceL '•' [] bulletSpanRepl h5
  replaceL '⚠' ['️'] warnSpanRepl h6

/-- The function `formatMarkdown` on strings. -/
def formatMarkdown (s : String) : String := String.mk (formatMarkdownL s.data)

/-- DOM/JS state of one turn in src/unnamed/part_000: same shape as
`StateA` but the response element is written through `innerHTML` with
`formatMarkdown`. -/
structure StateB where
  busy : Bool
  btnDisabled : Bool
  statusClass : String
  statusHtml : String
  responseHtml : String
  text : String
  deriving Repr, DecidableEq

/-- State at the top of `send` in part_000. -/
def initB : StateB :=
  { busy := true
    btnDisabled := true
    statusClass := "status active"
    statusHtml := spinnerSpan "Thinking..."
    responseHtml := ""
    text := "" }

/-- One iteration of the event dispatch in part_000 (lines 97-106):
as in app.js, except `text` renders through `formatMarkdown` into
`innerHTML` and `done` additionally re-renders the response. -/
def stepB (st : StateB) (e : Ev) : StateB :=
  match e with
  | Ev.status c => { st with statusHtml := spinnerSpan c }
  | Ev.text c =>
      let t := st.text ++ c
      { st with text := t, responseHtml := formatMarkdown t }
  | Ev.done =>
      { st with statusClass := "status done", statusHtml := "Complete",
                responseHtml := formatMarkdown st.text }
  | Ev.question _ => st
  | Ev.other => st

/-- Processing a whole sequence of decoded events in part_000. -/
def runB (st : StateB) (evs : List Ev) : StateB :=
  evs.foldl stepB st

/-- One received line in part_000 (lines 91-95), as in app.js. -/
def lineB (parse : String → Option Ev) (st : StateB) (line : String) : StateB :=
  if line.startsWith "data: " then
    match parse (line.drop 6) with
    | Option.some e => stepB st e
    | Option.none => st
  else st

/-- The whole `send` function of part_000 on one outcome
(lines 112-122). -/
def sendB (parse : String → Option Ev) (o : SendOutcome) : StateB :=
  match o with
  | SendOutcome.stream lines =>
      let st := lines.foldl (lineB parse) initB
      { st with statusClass := "status done", statusHtml := "Complete",
                busy := false, btnDisabled := false }
  | SendOutcome.failAfter lines =>
      let st := lines.foldl (lineB parse) initB
      { st with statusClass := "status error",
                statusHtml := "Failed to connect. Is the backend running?",
                busy := false, btnDisabled := false }

/-- State touched by the form submit and keydown handlers: the `busy`
flag, the button, the input field, and a count of `send` calls started
(to express that no new turn begins). -/
structure UIState where
  busy : Bool
  btnDisabled : Bool
  inputValue : String
  sendsStarted : Nat
  deriving Repr, DecidableEq

/-- The form submit handler (app.js lines 102-109, part_000 lines
125-132): trim the input; if it is empty or `busy` is set, return without
starting a send; otherwise clear the input and call `send`, whose first
statements set `busy` and disable the button. -/
def submitHandler (st : UIState) : UIState :=
  let prompt := st.inputValue.trim
  if prompt = "" ∨ st.busy then st
  else { st with inputValue := "", busy := true, btnDisabled := true,
                 sendsStarted := st.sendsStarted + 1 }

/-- The input keydown handler (lines 16-21 in both files): on Enter
without Shift and not `busy`, dispatch the submit event. -/
def keydownHandler (st : UIState) (enterKey shiftKey : Bool) : UIState :=
  if enterKey ∧ ¬shiftKey ∧ ¬st.busy then submitHandler st else st

/-- The content of a `text` event, `none` for every other event. -/
def textContent : Ev → Option String
  | Ev.text c => Option.some c
  | _ => Option.none

/-- Concatenation, in arrival order, of the contents of the `text`
events of a stream. -/
def textConcat : List Ev → String
  | [] => ""
  | e :: rest =>
    match textContent e with
    | Option.some c => c ++ textConcat rest
    | Option.none => textConcat rest

/-- Scanning a most-recent-first event list for the last write to the
status element: a `status` event shows its content in the spinner
template, `done` shows Complete, anything else is skipped; `d` is shown
when no event wrote the status. -/
def statusFromRecent (d : String) : List Ev → String
  | [] => d
  | Ev.status c :: _ => spinnerSpan c
  | Ev.done :: _ => "Complete"
  | _ :: rest => statusFromRecent d rest

/-- The status the client displays after a prefix `evs` of the stream:
determined by the most recent status-writing event, with the initial
Thinking spinner as default. -/
def mostRecentStatus (evs : List Ev) : String :=
  statusFromRecent (spinnerSpan "Thinking...") evs.reverse

/-- Modelled from the spec: ToolInvocation of §3 — the backend sources
are not under src/, only the frontend is. -/
structure ToolInvocation where
  tool : String
  args : List (String × String)
  deriving Repr, DecidableEq

/-- Modelled from the spec: the outcome part of ToolResult (§3). -/
inductive Outcome where
  | success (payload : String)
  | failure (reason : String)
  deriving Repr, DecidableEq

/-- Modelled from the spec: ToolResult (§3). -/
structure ToolResult where
  invocation : ToolInvocation
  outcome : Outcome
  deriving Repr, DecidableEq

/-- Modelled from the spec: Plan, a tagged variant with exactly one
active branch (§3). -/
inductive Plan where
  | clarify (question : String)
  | converse (answer : String)
  | execute (steps : List ToolInvocation)
  deriving Repr, DecidableEq

/-- Modelled from the spec: the progress events of §5, in the order
"plan resolved → (clarify question) | (per-step start notifications, in
step order) → final answer → completion marker". -/
inductive BEvent where
  | planResolved
  | question (q : String)
  | stepStart (tool : String)
  | answer (t : String)
  | completion
  deriving Repr, DecidableEq

/-- Modelled from the spec: the Executor of §4.3 — runs the steps
strictly sequentially in the given order, emits one progress
notification per step start, and accumulates one ToolResult per step. -/
def executeSteps (run : ToolInvocation → Outcome) :
    List ToolInvocation → List BEvent × List ToolResult
  | [] => ([], [])
  | s :: rest =>
    let r := executeSteps run rest
    (BEvent.stepStart s.tool :: r.1,
     { invocation := s, outcome := run s } :: r.2)

/-- Modelled from the spec: the Orchestrator of §4.5/§5 — resolve the
plan, branch on its kind, stream the step events of the Executor, then the
final answer from the Responder, then the completion marker. -/
def orchestrate (run : ToolInvocation → Outcome)
    (respond : List ToolResult → String) (plan : Plan) : List BEvent :=
  BEvent.planResolved ::
  (match plan with
  | Plan.clarify q => [BEvent.question q, BEvent.completion]
  | Plan.converse a => [BEvent.answer a, BEvent.completion]
  | Plan.execute steps =>
      let r := executeSteps run steps
      r.1 ++ [BEvent.answer (respond r.2), BEvent.completion])

/-- Recognizer for step-start progress events. -/
def isStepStart : BEvent → Bool
  | BEvent.stepStart _ => true
  | _ => false

/-- Recognizer for the final answer event. -/
def isAnswer : BEvent → Bool
  | BEvent.answer _ => true
  | _ => false

def spanBlueOpen : List Char := "<span style=\"color: #60a5fa;\">".data
def spanYellowOpen : List Char := "<span style=\"color: #fbbf24;\">".data
def spanClose : List Char := "</span>".data

/-- The only tags `formatMarkdown` itself introduces. -/
def allowedTags : List (List Char) :=
  [strongOpen, strongClose, brRepl, spanBlueOpen, spanYellowOpen, spanClose]

/-- An HTML fragment is tag-safe when it is a concatenation of
formatter-introduced tags and characters that are neither `<` nor `>`:
no other markup can occur in it. -/
inductive TagOnly : List Char → Prop where
  | nil : TagOnly []
  | chr {c : Char} {rest : List Char} :
      c ≠ '<' → c ≠ '>' → TagOnly rest → TagOnly (c :: rest)
  | tag {t rest : List Char} :
      t ∈ allowedTags → TagOnly rest → TagOnly (t ++ rest)

/-! ## Helper lemmas about the client event loop -/

theorem runA_cons (st : StateA) (e : Ev) (rest : List Ev) :
    runA st (e :: rest) = runA (stepA st e) rest := rfl

theorem runB_cons (st : StateB) (e : Ev) (rest : List Ev) :
    runB st (e :: rest) = runB (stepB st e) rest := rfl

theorem runA_text_eq (evs : List Ev) : ∀ st : StateA,
    (runA st evs).text = st.text ++ textConcat evs := by
  induction evs with
  | nil => intro st; simp [runA, textConcat]
  | cons e rest ih =>
    intro st
    rw [runA_cons, ih]
    cases e <;> simp [stepA, textConcat, textContent, String.append_assoc]

theorem runB_text_eq (evs : List Ev) : ∀ st : StateB,
    (runB st evs).text = st.text ++ textConcat evs := by
  induction evs with
  | nil => intro st; simp [runB, textConcat]
  | cons e rest ih =>
    intro st
    rw [runB_cons, ih]
    cases e <;> simp [stepB, textConcat, textContent, String.append_assoc]

theorem runA_responseText_eq (evs : List Ev) : ∀ st : StateA,
    st.responseText = st.text →
    (runA st evs).responseText = (runA st evs).text := by
  induction evs with
  | nil => intro st h; simpa [runA] using h
  | cons e rest ih =>
    intro st h
    rw [runA_cons]
    apply ih
    cases e <;> simp [stepA, h]

/-- C1: the claim says every event with a protocol type updates the
display and in particular a question event is surfaced to the user.  In
the code the dispatch chain of both clients handles only `status`,
`text` and `done`: a `question` event falls through every branch and
leaves the whole turn state — status and answer display included —
unchanged. -/
theorem c1_question_event_not_rendered (stA : StateA) (stB : StateB) (q : String) :
    stepA stA (Ev.question q) = stA ∧ stepB stB (Ev.question q) = stB :=
  ⟨rfl, rfl⟩

/-- C2: the final accumulated answer text of a turn — shown by app.js
through `textContent` and by part_000 through `formatMarkdown` — equals
the concatenation, in arrival order, of the contents of the `text`
events of the stream. -/
theorem c2_answer_is_text_concat (evs : List Ev) :
    (runA initA evs).responseText = textConcat evs ∧
    (runA initA evs).text = textConcat evs ∧
    (runB initB evs).text = textConcat evs := by
  have h1 := runA_text_eq evs initA
  have h2 := runA_responseText_eq evs initA rfl
  have h3 := runB_text_eq evs initB
  simp only [initA, initB] at h1 h3
  rw [String.empty_append] at h1 h3
  exact ⟨h2.trans h1, h1, h3⟩

/-- C3: while `busy` is set, neither the form submit handler nor the
Enter keydown handler starts a second send: both leave the state — in
particular the count of started sends — unchanged. -/
theorem c3_busy_blocks_second_send (st : UIState) (enterKey shiftKey : Bool)
    (h : st.busy = true) :
    submitHandler st = st ∧ keydownHandler st enterKey shiftKey = st := by
  constructor
  · simp [submitHandler, h]
  · simp [keydownHandler, submitHandler, h]

/-- Witness for C3 at a concrete busy state. -/
theorem c3_witness :
    submitHandler ⟨true, true, "hi", 0⟩ = ⟨true, true, "hi", 0⟩ ∧
    keydownHandler ⟨true, true, "hi", 0⟩ true false = ⟨true, true, "hi", 0⟩ :=
  c3_busy_blocks_second_send ⟨true, true, "hi", 0⟩ true false rfl

/-- Counterexample to C4 as stated: after the client has processed a
`done` event, a later `status` event still changes the displayed status
and a later `text` event still changes the displayed answer. -/
theorem c4_counterexample :
    (runA initA [Ev.done]).statusHtml = "Complete" ∧
    (runA initA [Ev.done, Ev.status "Searching emails..."]).statusHtml
      = spinnerSpan "Searching emails..." ∧
    spinnerSpan "Searching emails..." ≠ "Complete" ∧
    (runA initA [Ev.done, Ev.text "more"]).responseText
      ≠ (runA initA [Ev.done]).responseText :=
  ⟨rfl, rfl, by decide, by decide⟩

/-- C4 amended: the client does not stop processing at a `done` event;
it processes every received event.  A `done` event marks the status
Complete, so whenever `done` is the last event of the stream — which is
what the protocol guarantees — the turn ends displaying Complete. -/
theorem c4_amended_done_last_completes (st : StateA) (evs : List Ev) :
    (runA st (evs ++ [Ev.done])).statusHtml = "Complete" ∧
    (runA st (evs ++ [Ev.done])).statusClass = "status done" := by
  unfold runA
  rw [List.foldl_append]
  exact ⟨rfl, rfl⟩

/-- C5: every outcome of `send` — normal stream end (with or without a
`done` event) or a thrown connection/stream error — ends with `busy`
cleared and the button re-enabled, and the error outcome displays the
connection-failure status. -/
theorem c5_send_always_unlocks (parse : String → Option Ev) (lines : List String) :
    (sendA parse (SendOutcome.stream lines)).busy = false ∧
    (sendA parse (SendOutcome.stream lines)).btnDisabled = false ∧
    (sendA parse (SendOutcome.failAfter lines)).busy = false ∧
    (sendA parse (SendOutcome.failAfter lines)).btnDisabled = false ∧
    (sendA parse (SendOutcome.failAfter lines)).statusClass = "status error" ∧
    (sendA parse (SendOutcome.failAfter lines)).statusHtml
      = "Failed to connect. Is the backend running?" ∧
    (sendB parse (SendOutcome.stream lines)).busy = false ∧
    (sendB parse (SendOutcome.stream lines)).btnDisabled = false ∧
    (sendB parse (SendOutcome.failAfter lines)).busy = false ∧
    (sendB parse (SendOutcome.failAfter lines)).btnDisabled = false :=
  ⟨rfl, rfl, rfl, rfl, rfl, rfl, rfl, rfl, rfl, rfl⟩

theorem statusFromRecent_append (d : String) (e : Ev) (xs : List Ev) :
    statusFromRecent d (xs ++ [e]) = statusFromRecent (statusFromRecent d [e]) xs := by
  induction xs with
  | nil => rfl
  | cons x rest ih => cases x <;> simp [statusFromRecent, ih]

theorem runA_statusHtml_eq (evs : List Ev) : ∀ st : StateA,
    (runA st evs).statusHtml = statusFromRecent st.statusHtml evs.reverse := by
  induction evs with
  | nil => intro st; rfl
  | cons e rest ih =>
    intro st
    rw [runA_cons, ih, List.reverse_cons, statusFromRecent_append]
    congr 1
    cases e <;> simp [stepA, statusFromRecent]

/-- Counterexample to C6 as stated: after the prefix
`[status "Searching emails...", done]` the displayed status is Complete,
not the content of the most recent `status` event. -/
theorem c6_counterexample :
    (runA initA [Ev.status "Searching emails...", Ev.done]).statusHtml = "Complete" ∧
    "Complete" ≠ "Searching emails..." ∧
    "Complete" ≠ spinnerSpan "Searching emails..." :=
  ⟨rfl, by decide, by decide⟩

/-- C6 amended: each `status` event replaces the displayed status with
its content (last writer wins), and after any prefix of the stream the
status shown is determined by the most recent status-writing event:
the content of the latest `status` event, Complete if a `done` came
later, and the initial Thinking spinner when neither has arrived. -/
theorem c6_amended_status_display (evs : List Ev) (c : String) :
    (runA initA evs).statusHtml = mostRecentStatus evs ∧
    (runA initA (evs ++ [Ev.status c])).statusHtml = spinnerSpan c := by
  constructor
  · exact runA_statusHtml_eq evs initA
  · rw [runA_statusHtml_eq]
    simp [List.reverse_append, statusFromRecent]

theorem step_text_agree (stA : StateA) (stB : StateB) (e : Ev)
    (h : stA.text = stB.text) :
    (stepA stA e).text = (stepB stB e).text := by
  cases e <;> simp [stepA, stepB, h]

theorem line_text_agree (parse : String → Option Ev) (stA : StateA) (stB : StateB)
    (line : String) (h : stA.text = stB.text) :
    (lineA parse stA line).text = (lineB parse stB line).text := by
  cases hd : line.startsWith "data: " with
  | false => simp [lineA, lineB, hd, h]
  | true =>
    cases hp : parse (line.drop 6) with
    | none => simp [lineA, lineB, hd, hp, h]
    | some e =>
      simp only [lineA, lineB, hd, hp, if_true]
      exact step_text_agree stA stB e h

theorem fold_text_agree (parse : String → Option Ev) (lines : List String) :
    ∀ (stA : StateA) (stB : StateB), stA.text = stB.text →
    (lines.foldl (lineA parse) stA).text = (lines.foldl (lineB parse) stB).text := by
  induction lines with
  | nil => intro stA stB h; exact h
  | cons line rest ih =>
    intro stA stB h
    rw [List.foldl_cons, List.foldl_cons]
    exact ih _ _ (line_text_agree parse stA stB line h)

/-- C9: on the same received stream lines and the same decoding, the two
client versions accumulate the same answer text and end in the same
busy/button state; they differ only in how that text is rendered. -/
theorem c9_clients_equivalent (parse : String → Option Ev) (o : SendOutcome) :
    (sendA parse o).text = (sendB parse o).text ∧
    (sendA parse o).busy = (sendB parse o).busy ∧
    (sendA parse o).btnDisabled = (sendB parse o).btnDisabled ∧
    (sendA parse o).statusClass = (sendB parse o).statusClass ∧
    (sendA parse o).statusHtml = (sendB parse o).statusHtml := by
  cases o with
  | stream lines =>
    exact ⟨fold_text_agree parse lines initA initB rfl, rfl, rfl, rfl, rfl⟩
  | failAfter lines =>
    exact ⟨fold_text_agree parse lines initA initB rfl, rfl, rfl, rfl, rfl⟩

theorem lineA_skip (parse : String → Option Ev) (line : String)
    (h : line.startsWith "data: " = false ∨ parse (line.drop 6) = Option.none) :
    ∀ st : StateA, lineA parse st line = st := by
  intro st
  rcases h with h | h
  · simp [lineA, h]
  · cases hd : line.startsWith "data: " with
    | false => simp [lineA, hd]
    | true => simp [lineA, hd, h]

theorem lineB_skip (parse : String → Option Ev) (line : String)
    (h : line.startsWith "data: " = false ∨ parse (line.drop 6) = Option.none) :
    ∀ st : StateB, lineB parse st line = st := by
  intro st
  rcases h with h | h
  · simp [lineB, h]
  · cases hd : line.startsWith "data: " with
    | false => simp [lineB, hd]
    | true => simp [lineB, hd, h]

/-- C10: a received line that does not start with "data: " or whose
payload does not decode leaves the state unchanged, and a stream
containing such a line behaves exactly like the stream without it: the
turn still completes with `busy` cleared. -/
theorem c10_malformed_line_harmless (parse : String → Option Ev)
    (pre post : List String) (line : String)
    (h : line.startsWith "data: " = false ∨ parse (line.drop 6) = Option.none) :
    (∀ st : StateA, lineA parse st line = st) ∧
    (∀ st : StateB, lineB parse st line = st) ∧
    sendA parse (SendOutcome.stream (pre ++ line :: post))
      = sendA parse (SendOutcome.stream (pre ++ post)) ∧
    sendB parse (SendOutcome.stream (pre ++ line :: post))
      = sendB parse (SendOutcome.stream (pre ++ post)) ∧
    (sendA parse (SendOutcome.stream (pre ++ line :: post))).busy = false := by
  have hA : (pre ++ line :: post).foldl (lineA parse) initA
      = (pre ++ post).foldl (lineA parse) initA := by
    rw [List.foldl_append, List.foldl_cons, lineA_skip parse line h,
        ← List.foldl_append]
  have hB : (pre ++ line :: post).foldl (lineB parse) initB
      = (pre ++ post).foldl (lineB parse) initB := by
    rw [List.foldl_append, List.foldl_cons, lineB_skip parse line h,
        ← List.foldl_append]
  refine ⟨lineA_skip parse line h, lineB_skip parse line h, ?_, ?_, rfl⟩
  · simp only [sendA, hA]
  · simp only [sendB, hB]

/-- Witness for C10 at a concrete malformed line. -/
theorem c10_witness :
    (∀ st : StateA, lineA (fun _ => Option.none) st "hello" = st) ∧
    (∀ st : StateB, lineB (fun _ => Option.none) st "hello" = st) ∧
    sendA (fun _ => Option.none) (SendOutcome.stream (["data: x"] ++ "hello" :: []))
      = sendA (fun _ => Option.none) (SendOutcome.stream (["data: x"] ++ [])) ∧
    sendB (fun _ => Option.none) (SendOutcome.stream (["data: x"] ++ "hello" :: []))
      = sendB (fun _ => Option.none) (SendOutcome.stream (["data: x"] ++ [])) ∧
    (sendA (fun _ => Option.none)
      (SendOutcome.stream (["data: x"] ++ "hello" :: []))).busy = false :=
  c10_malformed_line_harmless (fun _ => Option.none) ["data: x"] [] "hello" (Or.inr rfl)

theorem executeSteps_eq (run : ToolInvocation → Outcome) (steps : List ToolInvocation) :
    executeSteps run steps
      = (steps.map (fun s => BEvent.stepStart s.tool),
         steps.map (fun s => { invocation := s, outcome := run s })) := by
  induction steps with
  | nil => rfl
  | cons s rest ih => simp [executeSteps, ih]

theorem takeWhile_append_of_all {α : Type} (p : α → Bool) (xs ys : List α)
    (h : ∀ x ∈ xs, p x = true) :
    (xs ++ ys).takeWhile p = xs ++ ys.takeWhile p := by
  induction xs with
  | nil => rfl
  | cons x rest ih =>
    have hx := h x (List.mem_cons_self x rest)
    have hrest := ih (fun y hy => h y (List.mem_cons_of_mem x hy))
    simp [List.takeWhile_cons, hx, hrest]

/-- C7: for an execute plan with N steps the orchestrator emits exactly
N step-start progress events, one per step in plan order, and all of
them strictly before the final answer event of the turn. -/
theorem c7_step_events_before_answer (run : ToolInvocation → Outcome)
    (respond : List ToolResult → String) (steps : List ToolInvocation) :
    ((orchestrate run respond (Plan.execute steps)).filter isStepStart).length
      = steps.length ∧
    (orchestrate run respond (Plan.execute steps)).filter isStepStart
      = steps.map (fun s => BEvent.stepStart s.tool) ∧
    ((orchestrate run respond (Plan.execute steps)).takeWhile
        (fun e => !isAnswer e)).filter isStepStart
      = steps.map (fun s => BEvent.stepStart s.tool) := by
  have hev : orchestrate run respond (Plan.execute steps)
      = BEvent.planResolved ::
          (steps.map (fun s => BEvent.stepStart s.tool)
            ++ [BEvent.answer (respond (steps.map (fun s => ⟨s, run s⟩))),
                BEvent.completion]) := by
    simp [orchestrate, executeSteps_eq]
  have hmapfilter : (steps.map (fun s => BEvent.stepStart s.tool)).filter isStepStart
      = steps.map (fun s => BEvent.stepStart s.tool) := by
    apply List.filter_eq_self.2
    intro x hx
    rcases List.mem_map.1 hx with ⟨s, _, rfl⟩
    rfl
  have hall : ∀ x ∈ steps.map (fun s => BEvent.stepStart s.tool),
      (fun e => !isAnswer e) x = true := by
    intro x hx
    rcases List.mem_map.1 hx with ⟨s, _, rfl⟩
    rfl
  rw [hev]
  refine ⟨?_, ?_, ?_⟩
  · simp [List.filter_cons, List.filter_append, isStepStart, hmapfilter]
  · simp [List.filter_cons, List.filter_append, isStepStart, hmapfilter]
  · have ht : (steps.map (fun s => BEvent.stepStart s.tool)
        ++ [BEvent.answer (respond (steps.map (fun s => ⟨s, run s⟩))),
            BEvent.completion]).takeWhile (fun e => !isAnswer e)
        = steps.map (fun s => BEvent.stepStart s.tool) := by
      rw [takeWhile_append_of_all _ _ _ hall]
      simp [List.takeWhile_cons, isAnswer]
    simp [List.takeWhile_cons, isAnswer, ht, List.filter_cons, isStepStart,
          hmapfilter]

theorem tagOnly_append {a b : List Char} (ha : TagOnly a) (hb : TagOnly b) :
    TagOnly (a ++ b) := by
  induction ha with
  | nil => simpa using hb
  | chr h1 h2 _ ih => exact TagOnly.chr h1 h2 ih
  | tag hm _ ih =>
    rw [List.append_assoc]
    exact TagOnly.tag hm ih

theorem tagOnly_of_noAngle {l : List Char} (h : ∀ c ∈ l, c ≠ '<' ∧ c ≠ '>') :
    TagOnly l := by
  induction l with
  | nil => exact TagOnly.nil
  | cons c rest ih =>
    have hc := h c (List.mem_cons_self c rest)
    exact TagOnly.chr hc.1 hc.2 (ih fun d hd => h d (List.mem_cons_of_mem c hd))

theorem replaceL_single_cons (c : Char) (repl : List Char) (x : Char)
    (rest : List Char) :
    replaceL c [] repl (x :: rest)
      = if x = c then repl ++ replaceL c [] repl rest
        else x :: replaceL c [] repl rest := by
  by_cases hx : x = c
  · simp [replaceL, hx, List.isPrefixOf]
  · simp [replaceL, hx, List.isPrefixOf]

theorem mem_of_mem_replaceL (p : Char) (ps repl : List Char) (d : Char) :
    ∀ (n : ℕ) (l : List Char), l.length ≤ n →
      d ∈ replaceL p ps repl l → d ∈ repl ∨ d ∈ l := by
  intro n
  induction n with
  | zero =>
    intro l hl hd
    cases l with
    | nil => simp [replaceL] at hd
    | cons c rest => simp at hl
  | succ n ih =>
    intro l hl hd
    cases l with
    | nil => simp [replaceL] at hd
    | cons c rest =>
      simp only [replaceL] at hd
      by_cases hc : (c = p ∧ ps.isPrefixOf rest)
      · rw [if_pos hc] at hd
        rcases List.mem_append.1 hd with h | h
        · exact Or.inl h
        · have hlen : (rest.drop ps.length).length ≤ n := by
            simp only [List.length_drop]
            simp at hl
            omega
          rcases ih (rest.drop ps.length) hlen h with h' | h'
          · exact Or.inl h'
          · exact Or.inr (List.mem_cons_of_mem c (List.mem_of_mem_drop h'))
      · rw [if_neg hc] at hd
        rcases List.mem_cons.1 hd with h | h
        · exact Or.inr (h ▸ List.mem_cons_self c rest)
        · have hlen : rest.length ≤ n := by simp at hl; omega
          rcases ih rest hlen h with h' | h'
          · exact Or.inl h'
          · exact Or.inr (List.mem_cons_of_mem c h')

theorem not_mem_replaceL_self (c : Char) (repl : List Char) (hc : c ∉ repl) :
    ∀ l : List Char, c ∉ replaceL c [] repl l := by
  intro l
  induction l with
  | nil => simp [replaceL]
  | cons x rest ih =>
    rw [replaceL_single_cons]
    by_cases hx : x = c
    · rw [if_pos hx]
      intro hmem
      rcases List.mem_append.1 hmem with h | h
      · exact hc h
      · exact ih h
    · rw [if_neg hx]
      intro hmem
      rcases List.mem_cons.1 hmem with h | h
      · exact hx h.symm
      · exact ih h

theorem escape_noAngle (s : List Char) :
    ∀ d ∈ replaceL '>' [] gtRepl
        (replaceL '<' [] ltRepl (replaceL '&' [] ampRepl s)),
      d ≠ '<' ∧ d ≠ '>' := by
  intro d hd
  constructor
  · intro h
    subst h
    rcases mem_of_mem_replaceL '>' [] gtRepl '<' _ _ le_rfl hd with h | h
    · revert h; decide
    · exact not_mem_replaceL_self '<' ltRepl (by decide) _ h
  · intro h
    subst h
    exact not_mem_replaceL_self '>' gtRepl (by decide) _ hd

theorem allowedTags_head : ∀ t ∈ allowedTags, t.head? = Option.some '<' := by
  decide

theorem tagOnly_cons_elim {x : Char} {rest : List Char} (h : TagOnly (x :: rest)) :
    (x ≠ '<' ∧ x ≠ '>' ∧ TagOnly rest) ∨
    (∃ t rest2, t ∈ allowedTags ∧ x :: rest = t ++ rest2 ∧ TagOnly rest2) := by
  generalize hl : x :: rest = l at h
  cases h with
  | nil => simp at hl
  | chr h1 h2 h3 =>
    rcases List.cons.inj hl with ⟨he1, he2⟩
    subst he1
    subst he2
    exact Or.inl ⟨h1, h2, h3⟩
  | tag hm h2 =>
    rename_i t rest2
    exact Or.inr ⟨t, rest2, hm, rfl, h2⟩

theorem tagOnly_drop (ps : List Char) (hps : '<' ∉ ps) :
    ∀ l : List Char, ps.isPrefixOf l = true → TagOnly l →
      TagOnly (l.drop ps.length) := by
  induction ps with
  | nil => intro l _ h; simpa using h
  | cons p' ps' ih =>
    intro l hpre ht
    cases l with
    | nil => simp [List.isPrefixOf] at hpre
    | cons x rest =>
      have hx : p' = x ∧ ps'.isPrefixOf rest = true := by
        simpa [List.isPrefixOf] using hpre
      rcases tagOnly_cons_elim ht with ⟨_, _, h3⟩ | ⟨t, rest2, hm, heq, h2⟩
      · have hps' : '<' ∉ ps' := fun hmem => hps (List.mem_cons_of_mem p' hmem)
        simpa [List.drop_succ_cons] using ih hps' rest hx.2 h3
      · exfalso
        have hhead := allowedTags_head t hm
        cases t with
        | nil => simp at hhead
        | cons th tt =>
          simp only [List.head?_cons, Option.some.injEq] at hhead
          rw [List.cons_append] at heq
          rcases List.cons.inj heq with ⟨he1, _⟩
          apply hps
          rw [hx.1, he1, hhead]
          exact List.mem_cons_self _ _

theorem replaceL_append_not_mem (p : Char) (ps repl : List Char) :
    ∀ u rest : List Char, p ∉ u →
      replaceL p ps repl (u ++ rest) = u ++ replaceL p ps repl rest := by
  intro u
  induction u with
  | nil => intro rest _; rfl
  | cons x u' ih =>
    intro rest hu
    have hx : x ≠ p := fun h => hu (h ▸ List.mem_cons_self x u')
    rw [List.cons_append]
    simp only [replaceL]
    rw [if_neg (fun hc => hx hc.1)]
    rw [ih rest (fun hm => hu (List.mem_cons_of_mem x hm))]
    rfl

theorem tagOnly_replaceL (p : Char) (ps repl : List Char)
    (hrepl : TagOnly repl) (hps : '<' ∉ ps)
    (hptags : ∀ t ∈ allowedTags, p ∉ t) :
    ∀ (n : ℕ) (l : List Char), l.length ≤ n → TagOnly l →
      TagOnly (replaceL p ps repl l) := by
  intro n
  induction n with
  | zero =>
    intro l hl ht
    cases l with
    | nil => simp only [replaceL]; exact TagOnly.nil
    | cons c rest => simp at hl
  | succ n ih =>
    intro l hl ht
    cases ht with
    | nil => simp only [replaceL]; exact TagOnly.nil
    | chr h1 h2 h3 =>
      rename_i c rest
      simp only [replaceL]
      by_cases hc : (c = p ∧ ps.isPrefixOf rest)
      · rw [if_pos hc]
        apply tagOnly_append hrepl
        apply ih (rest.drop ps.length) ?_ (tagOnly_drop ps hps rest hc.2 h3)
        simp only [List.length_drop]
        simp at hl
        omega
      · rw [if_neg hc]
        have hlen : rest.length ≤ n := by simp at hl; omega
        exact TagOnly.chr h1 h2 (ih rest hlen h3)
    | tag hm h2 =>
      rename_i t rest
      rw [replaceL_append_not_mem p ps repl t rest (hptags t hm)]
      apply TagOnly.tag hm
      apply ih rest ?_ h2
      have hhead := allowedTags_head t hm
      cases t with
      | nil => simp at hhead
      | cons th tt =>
        simp only [List.length_append, List.length_cons] at hl ⊢
        omega

theorem tagOnly_boldRepl :
    ∀ (n : ℕ) (l : List Char), l.length ≤ n → (∀ c ∈ l, c ≠ '<' ∧ c ≠ '>') →
      TagOnly (boldRepl l) := by
  intro n
  induction n with
  | zero =>
    intro l hl h
    cases l with
    | nil => simp only [boldRepl]; exact TagOnly.nil
    | cons c rest => simp at hl
  | succ n ih =>
    intro l hl h
    cases l with
    | nil => simp only [boldRepl]; exact TagOnly.nil
    | cons c1 t =>
      cases t with
      | nil =>
        simp only [boldRepl]
        have hc := h c1 (List.mem_cons_self c1 [])
        exact TagOnly.chr hc.1 hc.2 TagOnly.nil
      | cons c2 rest =>
        simp only [boldRepl]
        by_cases hc : (c1 = '*' ∧ c2 = '*' ∧
            rest.takeWhile (fun c => c ≠ '*') ≠ [] ∧
            ['*', '*'].isPrefixOf (rest.dropWhile (fun c => c ≠ '*')))
        · rw [if_pos hc]
          simp only [List.append_assoc]
          apply TagOnly.tag (show strongOpen ∈ allowedTags by simp [allowedTags])
          apply tagOnly_append
          · apply tagOnly_of_noAngle
            intro d hd
            have hd2 : d ∈ rest := (List.takeWhile_sublist _).subset hd
            exact h d (List.mem_cons_of_mem c1 (List.mem_cons_of_mem c2 hd2))
          · apply TagOnly.tag (show strongClose ∈ allowedTags by simp [allowedTags])
            apply ih ((rest.dropWhile (fun c => c ≠ '*')).drop 2)
            · have h2 : (rest.dropWhile (fun c => c ≠ '*')).length ≤ rest.length :=
                (List.dropWhile_sublist _).length_le
              simp only [List.length_drop, List.length_cons] at hl ⊢
              omega
            · intro d hd
              have hd2 : d ∈ rest.dropWhile (fun c => c ≠ '*') :=
                List.drop_subset _ _ hd
              have hd3 : d ∈ rest := (List.dropWhile_sublist _).subset hd2
              exact h d (List.mem_cons_of_mem c1 (List.mem_cons_of_mem c2 hd3))
        · rw [if_neg hc]
          have hc1 := h c1 (List.mem_cons_self _ _)
          refine TagOnly.chr hc1.1 hc1.2 ?_
          apply ih (c2 :: rest)
          · simp only [List.length_cons] at hl ⊢
            omega
          · intro d hd
            exact h d (List.mem_cons_of_mem c1 hd)

theorem tagOnly_brRepl : TagOnly brRepl := by
  have h : TagOnly (brRepl ++ []) :=
    TagOnly.tag (by simp [allowedTags]) TagOnly.nil
  simpa using h

theorem tagOnly_bulletSpanRepl : TagOnly bulletSpanRepl := by
  have hd : bulletSpanRepl = spanBlueOpen ++ ('•' :: spanClose) := by decide
  rw [hd]
  apply TagOnly.tag (by simp [allowedTags])
  refine TagOnly.chr (by decide) (by decide) ?_
  have h : TagOnly (spanClose ++ []) :=
    TagOnly.tag (by simp [allowedTags]) TagOnly.nil
  simpa using h

theorem tagOnly_warnSpanRepl : TagOnly warnSpanRepl := by
  have hd : warnSpanRepl = spanYellowOpen ++ ('⚠' :: '️' :: spanClose) := by
    decide
  rw [hd]
  apply TagOnly.tag (by simp [allowedTags])
  refine TagOnly.chr (by decide) (by decide) ?_
  refine TagOnly.chr (by decide) (by decide) ?_
  have h : TagOnly (spanClose ++ []) :=
    TagOnly.tag (by simp [allowedTags]) TagOnly.nil
  simpa using h

/-- C8: `formatMarkdown` escapes `&`, `<` and `>` before any formatting
pass runs, so its output is a concatenation of formatter-introduced tags
(`<strong>`, `</strong>`, `<br>`, the two styled span openers and
`</span>`) and angle-free characters: no substring of the original
content survives as unescaped markup. -/
theorem c8_formatMarkdown_tag_safe (s : String) :
    TagOnly (formatMarkdown s).data := by
  show TagOnly (formatMarkdownL s.data)
  simp only [formatMarkdownL]
  apply tagOnly_replaceL '⚠' ['️'] warnSpanRepl tagOnly_warnSpanRepl
    (by decide) (by decide) _ _ le_rfl
  apply tagOnly_replaceL '•' [] bulletSpanRepl tagOnly_bulletSpanRepl
    (by simp) (by decide) _ _ le_rfl
  apply tagOnly_replaceL '\n' [] brRepl tagOnly_brRepl
    (by simp) (by decide) _ _ le_rfl
  apply tagOnly_boldRepl _ _ le_rfl
  exact escape_noAngle s.data
